import Mathlib

/-!
Verification development for the `honold` flash-message store
(`src/lib/flash.ts`, `src/lib/flash-store.class.ts`, `src/lib/model.ts`,
`src/lib/formdata-flash.ts`, `src/lib/old.ts`).

Modelling conventions:
* `JSON.parse` / `JSON.stringify` are modelled at the level of JSON
  documents (`JSONValue`).  An incoming cookie is `Option (Option JSONValue)`:
  `none` = cookie absent, `some none` = cookie present but `JSON.parse`
  throws (not valid JSON), `some (some j)` = cookie parses to the document
  `j`.  The outgoing cookie channel is the list of documents written via
  `setCookie`.
* A JS `Record<string, string[]>` is modelled as an insertion-ordered
  association list `List (String × List String)` (exotic JS engine
  behaviour such as integer-like key reordering or prototype-chain
  lookups is not modelled).
* A `FormData` object is modelled as its ordered entry list
  `List (String × FormValue)`, where `FormValue` distinguishes string
  entries from non-string (`File`) entries.
* The `AsyncLocalStorage` binding of `getFlashStore` is modelled as an
  `Option FlashStore` argument (the currently bound store, if any);
  throwing is modelled with `Except String`.
-/

namespace Honold

/-- A JSON document, the image of `JSON.parse` (model of the TS `JSONValue`). -/
inductive JSONValue where
  | null
  | bool (b : Bool)
  | num (n : Int)
  | str (s : String)
  | arr (elems : List JSONValue)
  | obj (fields : List (String × JSONValue))

/-- Field lookup on a parsed JS object (keys of a parsed object are unique). -/
def jlookup (fields : List (String × JSONValue)) (k : String) : Option JSONValue :=
  (fields.find? (fun p => p.1 == k)).map (fun p => p.2)

/-- A form-data entry value: a string, or a non-string value such as a `File`. -/
inductive FormValue where
  | str (s : String)
  | file
  deriving DecidableEq

/-- Model of `src/lib/model.ts` `FlashValue`: a key path plus a JSON value. -/
structure FlashValue where
  key : List String
  value : JSONValue

/-- Model of `src/lib/model.ts` `Flash`: the flash container. -/
structure Flash where
  values : List FlashValue
  valid : Bool

/-- `key.every((k) => typeof k === "string")` on a parsed JSON array. -/
def isStringArr : List JSONValue → Bool
  | [] => true
  | .str _ :: t => isStringArr t
  | _ :: _ => false

/-- Model of `isFlashValue` from `src/lib/model.ts`. -/
def isFlashValue (j : JSONValue) : Bool :=
  match j with
  | .obj fields =>
    (match jlookup fields "key" with
     | some (.arr ks) => isStringArr ks
     | _ => false) && (jlookup fields "value").isSome
  | _ => false

/-- Model of `isFlash` from `src/lib/model.ts`. -/
def isFlash (j : JSONValue) : Bool :=
  match j with
  | .obj fields =>
    (match jlookup fields "values" with
     | some (.arr vs) => vs.all isFlashValue
     | _ => false) &&
    (match jlookup fields "valid" with
     | some (.bool _) => true
     | _ => false)
  | _ => false

/-- Extracts a string list from a parsed JSON array of strings. -/
def strListOfJson : List JSONValue → Option (List String)
  | [] => some []
  | .str s :: t => (strListOfJson t).map (fun r => s :: r)
  | _ :: _ => none

/-- Reads a `FlashValue` out of a JSON document (the typed view of an object
that passes `isFlashValue`). -/
def jsonToFlashValue (j : JSONValue) : Option FlashValue :=
  match j with
  | .obj fields =>
    match jlookup fields "key", jlookup fields "value" with
    | some (.arr ks), some v => (strListOfJson ks).map (fun keys => ⟨keys, v⟩)
    | _, _ => none
  | _ => none

/-- Reads a list of `FlashValue`s out of a list of JSON documents. -/
def flashValueListOfJson : List JSONValue → Option (List FlashValue)
  | [] => some []
  | j :: t =>
    match jsonToFlashValue j, flashValueListOfJson t with
    | some fv, some r => some (fv :: r)
    | _, _ => none

/-- Reads a `Flash` container out of a JSON document (the typed view of an
object that passes `isFlash`). -/
def jsonToFlash (j : JSONValue) : Option Flash :=
  match j with
  | .obj fields =>
    match jlookup fields "values", jlookup fields "valid" with
    | some (.arr vs), some (.bool b) =>
      (flashValueListOfJson vs).map (fun values => ⟨values, b⟩)
    | _, _ => none
  | _ => none

/-- The JSON document produced by `JSON.stringify` for a `FlashValue`
object literal `\x7b key, value \x7d`. -/
def FlashValue.toJson (fv : FlashValue) : JSONValue :=
  .obj [("key", .arr (fv.key.map JSONValue.str)), ("value", fv.value)]

/-- The JSON document produced by `JSON.stringify` for a `Flash`
object literal `\x7b valid, values \x7d`. -/
def Flash.toJson (f : Flash) : JSONValue :=
  .obj [("valid", .bool f.valid), ("values", .arr (f.values.map FlashValue.toJson))]

/-! ### FormDataCodec (`src/lib/formdata-flash.ts`) -/

/-- The body of the `serializeFormData` loop for one string entry:
`if (!obj[key]) obj[key] = []; obj[key].push(value)`. -/
def addEntry (obj : List (String × List String)) (key : String) (value : String) :
    List (String × List String) :=
  if obj.any (fun p => p.1 == key) then
    obj.map (fun p => if p.1 == key then (p.1, p.2 ++ [value]) else p)
  else
    obj ++ [(key, [value])]

/-- One iteration of the `serializeFormData` loop: non-string values are
skipped (`continue`), string values are added to their bucket. -/
def serStep (obj : List (String × List String)) (e : String × FormValue) :
    List (String × List String) :=
  match e.2 with
  | .file => obj
  | .str v => addEntry obj e.1 v

/-- Model of `serializeFormData`: iterate the entries in submission order,
skip non-string values, group same-named entries. -/
def serializeFormData (formData : List (String × FormValue)) :
    List (String × List String) :=
  formData.foldl serStep []

/-- Model of `deserializeFormData`: append every listed value, bucket by
bucket, in order. -/
def deserializeFormData (data : List (String × List String)) :
    List (String × FormValue) :=
  (data.map (fun p => p.2.map (fun v => (p.1, FormValue.str v)))).flatten

/-- `FormData.get`: the first value under a name, or `none` (JS `null`). -/
def fdGet (fd : List (String × FormValue)) (name : String) : Option FormValue :=
  (fd.find? (fun p => p.1 == name)).map (fun p => p.2)

/-- `FormData.has`: whether any entry uses the name. -/
def fdHas (fd : List (String × FormValue)) (name : String) : Bool :=
  fd.any (fun p => p.1 == name)

/-- `FormData.getAll`: all values under a name, in order. -/
def fdGetAll (fd : List (String × FormValue)) (name : String) : List FormValue :=
  (fd.filter (fun p => p.1 == name)).map (fun p => p.2)

/-- Whether a form-data entry value is a string. -/
def isStr : FormValue → Bool
  | .str _ => true
  | .file => false

/-- The string values submitted under a name, in submission order. -/
def stringsFor : List (String × FormValue) → String → List String
  | [], _ => []
  | (k, FormValue.str v) :: t, n =>
    if k == n then v :: stringsFor t n else stringsFor t n
  | (_, FormValue.file) :: t, n => stringsFor t n

/-- The keys of a record, in order. -/
def keysOf (data : List (String × List String)) : List String :=
  data.map Prod.fst

/-- The bucket of a record under a name (`[]` when absent). -/
def bucketD (data : List (String × List String)) (n : String) : List String :=
  match data.find? (fun p => p.1 == n) with
  | some p => p.2
  | none => []

/-- The concatenation of all buckets of a record under a name. -/
def joinBuckets (data : List (String × List String)) (n : String) : List String :=
  ((data.filter (fun p => p.1 == n)).map (fun p => p.2)).flatten

/-- The distinct elements of a list, in order of first occurrence. -/
def firstOccKeys : List String → List String
  | [] => []
  | k :: t => k :: firstOccKeys (t.filter (fun a => !(k == a)))
termination_by l => l.length
decreasing_by
  simp_wf
  have := List.length_filter_le (fun a => !(k == a)) t
  omega

/-! ### KeyPathMatcher (`FlashStore` private helpers) -/

/-- A polymorphic filter argument: `string | string[] | string[][]`. -/
inductive FlashFilter where
  | str (s : String)
  | path (p : List String)
  | paths (ps : List (List String))

/-- JS `.length` of the raw filter argument (string length, or array length). -/
def FlashFilter.length : FlashFilter → Nat
  | .str s => s.length
  | .path p => p.length
  | .paths ps => ps.length

/-- Model of `FlashStore.normalizeFilters`. -/
def normalizeFilters : FlashFilter → List (List String)
  | .str s => [[s]]
  | .path [] => []
  | .path p => [p]
  | .paths [] => []
  | .paths ps => ps

/-- Pointwise segment comparison with bounds check:
`f.every((part, i) => key.length > i && key[i] === part)`. -/
def segsMatch : List String → List String → Bool
  | [], _ => true
  | _ :: _, [] => false
  | p :: ps, k :: ks => p == k && segsMatch ps ks

/-- Model of `FlashStore.checkKeyAgainstFilters`. -/
def checkKeyAgainstFilters (key : List String) (filter : FlashFilter) : Bool :=
  (normalizeFilters filter).any (fun f => segsMatch f key)

/-- Model of `FlashStore.filterFlashValues`. -/
def filterFlashValues (values : List FlashValue) (pick omitF : FlashFilter) :
    List FlashValue :=
  values.filter fun fv =>
    if decide (pick.length > 0) && !checkKeyAgainstFilters fv.key pick then false
    else if decide (omitF.length > 0) && checkKeyAgainstFilters fv.key omitF then false
    else true

/-! ### FlashStore (`src/lib/flash-store.class.ts`) -/

/-- A flash key argument: `string | string[]`. -/
inductive KeyArg where
  | str (s : String)
  | list (l : List String)

/-- `[key].flat()`. -/
def KeyArg.flat : KeyArg → List String
  | .str s => [s]
  | .list l => l

/-- The same argument viewed as a raw filter (for `reflash` pick/omit). -/
def KeyArg.toFilter : KeyArg → FlashFilter
  | .str s => .str s
  | .list l => .path l

/-- The state of one `FlashStore` together with the cookie values it has
written (`setCookie` appends a `Set-Cookie` value to the response). -/
structure FlashStore where
  current : Flash
  next : Flash
  outgoing : List JSONValue

/-- Model of `FlashStore.initialize`: read and delete the incoming cookie,
parse it, validate it against the `Flash` schema; every failure mode yields
the empty invalid container (no error escapes). -/
def initializeFlash (rawCookieValue : Option (Option JSONValue)) : Flash :=
  match rawCookieValue with
  | none => ⟨[], false⟩
  | some none => ⟨[], false⟩
  | some (some parsed) =>
    if isFlash parsed then (jsonToFlash parsed).getD ⟨[], false⟩ else ⟨[], false⟩

/-- A freshly constructed `FlashStore` (constructor plus `initialize`). -/
def mkFlashStore (rawCookieValue : Option (Option JSONValue)) : FlashStore :=
  ⟨initializeFlash rawCookieValue, ⟨[], false⟩, []⟩

/-- Model of `FlashStore.flash`. -/
def FlashStore.flash (s : FlashStore) (key : KeyArg) (value : JSONValue) :
    FlashStore :=
  { s with next := ⟨s.next.values ++ [⟨"ext" :: key.flat, value⟩], true⟩ }

/-- The JSON document for a serialized `Record<string, string[]>`. -/
def recordToJson (record : List (String × List String)) : JSONValue :=
  .obj (record.map (fun p => (p.1, JSONValue.arr (p.2.map JSONValue.str))))

/-- Model of `FlashStore.flashInputs` (the awaited form data is passed in). -/
def FlashStore.flashInputs (s : FlashStore) (formData : List (String × FormValue)) :
    FlashStore :=
  { s with
    next := ⟨s.next.values ++ [⟨["inputs"], recordToJson (serializeFormData formData)⟩],
             true⟩ }

/-- Degraded view of a JSON value as a `Record<string, string[]>`, modelling
the unchecked TS cast `value as Record<string, string[]>` in `getInputs`. -/
def strListD (j : JSONValue) : List String :=
  match j with
  | .arr xs => xs.foldr (fun x acc => match x with | .str s => s :: acc | _ => acc) []
  | _ => []

/-- Degraded view of a JSON document as a record (see `strListD`). -/
def recordOfJson (j : JSONValue) : List (String × List String) :=
  match j with
  | .obj fields => fields.map (fun p => (p.1, strListD p.2))
  | _ => []

/-- Model of `FlashStore.getInputs`. -/
def FlashStore.getInputs (s : FlashStore) : Option (List (String × FormValue)) :=
  if !s.current.valid then none
  else
    match s.current.values.find? (fun fv =>
        match fv.key with
        | [k] => k == "inputs"
        | _ => false) with
    | none => none
    | some fv => some (deserializeFormData (recordOfJson fv.value))

/-- Model of the no-filter overload of `FlashStore.get`. -/
def FlashStore.getContainer (s : FlashStore) : Flash := s.current

/-- Model of the filtered overload of `FlashStore.get`: prepend `"ext"` to
the filter and keep values whose key it is a prefix of. -/
def FlashStore.get (s : FlashStore) (keyFilter : KeyArg) : List JSONValue :=
  ((s.current.values.filter
      (fun fv => segsMatch ("ext" :: keyFilter.flat) fv.key)).map
    (fun fv => fv.value))

/-- Model of `FlashStore.reflash`. -/
def FlashStore.reflash (s : FlashStore) (append : Bool) (pick omitF : FlashFilter) :
    FlashStore :=
  let valuesToReflash := filterFlashValues s.current.values pick omitF
  if append then
    { s with next := ⟨s.next.values ++ valuesToReflash, true⟩ }
  else
    { s with next := ⟨valuesToReflash, true⟩ }

/-- Model of `FlashStore.commit`. -/
def FlashStore.commit (s : FlashStore) : FlashStore :=
  if !s.next.valid then s
  else { s with outgoing := s.outgoing ++ [Flash.toJson s.next] }

/-! ### Programmatic surface (`src/lib/flash.ts`, `src/lib/old.ts`) -/

/-- Model of `getFlashStore`: the `AsyncLocalStorage` lookup plus the
contract-violation throw. -/
def getFlashStore (bound : Option FlashStore) : Except String FlashStore :=
  match bound with
  | none => .error "FlashStore is not available outside of honold middleware."
  | some store => .ok store

/-- Wrapper `flash(key, value)` from `src/lib/flash.ts`. -/
def flashFn (bound : Option FlashStore) (key : KeyArg) (value : JSONValue) :
    Except String FlashStore :=
  (getFlashStore bound).map (fun s => s.flash key value)

/-- Wrapper `flashInputs()` from `src/lib/flash.ts`. -/
def flashInputsFn (bound : Option FlashStore) (formData : List (String × FormValue)) :
    Except String FlashStore :=
  (getFlashStore bound).map (fun s => s.flashInputs formData)

/-- Wrapper `getFlash(filters)` from `src/lib/flash.ts`. -/
def getFlashFn (bound : Option FlashStore) (filters : KeyArg) :
    Except String (List JSONValue) :=
  (getFlashStore bound).map (fun s => s.get filters)

/-- Wrapper `reflash(options)` from `src/lib/flash.ts`. -/
def reflashFn (bound : Option FlashStore) (append : Bool) (pick omitF : FlashFilter) :
    Except String FlashStore :=
  (getFlashStore bound).map (fun s => s.reflash append pick omitF)

/-- `old(name)` from `src/lib/old.ts`. -/
def old (bound : Option FlashStore) (name : String) :
    Except String (Option FormValue) :=
  (getFlashStore bound).map (fun s =>
    match s.getInputs with
    | none => none
    | some fd => fdGet fd name)

/-- `oldChecked(name)` from `src/lib/old.ts`. -/
def oldChecked (bound : Option FlashStore) (name : String) :
    Except String (Option Bool) :=
  (getFlashStore bound).map (fun s => (s.getInputs).map (fun fd => fdHas fd name))

/-- `oldSelected(name, optionValue)` from `src/lib/old.ts`. -/
def oldSelected (bound : Option FlashStore) (name optionValue : String) :
    Except String (Option Bool) :=
  (getFlashStore bound).map (fun s =>
    (s.getInputs).map (fun fd =>
      (fdGetAll fd name).any (fun v => v == FormValue.str optionValue)))

/-! ### Lemmas about segment matching -/

theorem segsMatch_iff_append (f k : List String) :
    segsMatch f k = true ↔ ∃ t, f ++ t = k := by
  induction f generalizing k with
  | nil =>
    simp only [segsMatch, List.nil_append, true_iff]
    exact ⟨k, rfl⟩
  | cons p ps ih =>
    cases k with
    | nil =>
      simp only [segsMatch]
      constructor
      · intro h; cases h
      · rintro ⟨t, ht⟩; cases ht
    | cons q ks =>
      simp only [segsMatch, Bool.and_eq_true, beq_iff_eq, ih]
      constructor
      · rintro ⟨rfl, t, rfl⟩; exact ⟨t, rfl⟩
      · rintro ⟨t, ht⟩
        injection ht with h1 h2
        exact ⟨h1, t, h2⟩

theorem segsMatch_iff_idx (f k : List String) :
    segsMatch f k = true ↔
      f.length ≤ k.length ∧ ∀ i, i < f.length → f[i]? = k[i]? := by
  induction f generalizing k with
  | nil => simp [segsMatch]
  | cons p ps ih =>
    cases k with
    | nil =>
      simp only [segsMatch, List.length_cons, List.length_nil]
      constructor
      · intro h; cases h
      · rintro ⟨h, -⟩; omega
    | cons q ks =>
      simp only [segsMatch, Bool.and_eq_true, beq_iff_eq, ih, List.length_cons]
      constructor
      · rintro ⟨rfl, hle, hidx⟩
        refine ⟨by omega, ?_⟩
        intro i hi
        cases i with
        | zero => simp
        | succ j =>
          simp only [List.getElem?_cons_succ]
          exact hidx j (by omega)
      · rintro ⟨hle, hidx⟩
        have h0 := hidx 0 (by omega)
        simp only [List.getElem?_cons_zero, Option.some.injEq] at h0
        refine ⟨h0, by omega, ?_⟩
        intro j hj
        have := hidx (j + 1) (by omega)
        simpa only [List.getElem?_cons_succ] using this

theorem segsMatch_refl (k : List String) : segsMatch k k = true := by
  rw [segsMatch_iff_append]
  exact ⟨[], List.append_nil k⟩

/-- C5: matching a key `k` against the single normalized filter `[f]` holds
iff `f` is a prefix of `k` (there is a tail `t` with `f ++ t = k`;
equivalently `f.length ≤ k.length` and every segment of `f` equals the
corresponding segment of `k`), and matching against several filter paths is
the disjunction of the single-path matches. -/
theorem checkKey_prefix_semantics (k f : List String) (fs : List (List String)) :
    (checkKeyAgainstFilters k (FlashFilter.paths [f]) = true ↔ ∃ t, f ++ t = k)
    ∧ (checkKeyAgainstFilters k (FlashFilter.paths [f]) = true ↔
        f.length ≤ k.length ∧ ∀ i, i < f.length → f[i]? = k[i]?)
    ∧ checkKeyAgainstFilters k (FlashFilter.paths fs)
        = fs.any (fun g => checkKeyAgainstFilters k (FlashFilter.paths [g])) := by
  have hsingle : ∀ g : List String,
      checkKeyAgainstFilters k (FlashFilter.paths [g]) = segsMatch g k := by
    intro g
    simp [checkKeyAgainstFilters, normalizeFilters]
  refine ⟨?_, ?_, ?_⟩
  · rw [hsingle]; exact segsMatch_iff_append f k
  · rw [hsingle]; exact segsMatch_iff_idx f k
  · have hall : ∀ gs' : List (List String),
        (gs'.any fun g => checkKeyAgainstFilters k (FlashFilter.paths [g]))
          = gs'.any (fun g => segsMatch g k) := by
      intro gs'
      induction gs' with
      | nil => rfl
      | cons a t ih => simp [List.any_cons, hsingle, ih]
    rw [hall]
    cases fs with
    | nil => rfl
    | cons g gs => rfl

/-- C8: `getFlashStore` fails iff no store is bound in the request scope,
returns the bound store otherwise, and every programmatic-surface wrapper
fails exactly when `getFlashStore` does. -/
theorem scope_contract :
    (∀ bound : Option FlashStore, (getFlashStore bound).isOk = bound.isSome)
    ∧ (∀ s : FlashStore, getFlashStore (some s) = Except.ok s)
    ∧ (∀ (bound : Option FlashStore) (key : KeyArg) (value : JSONValue),
        (flashFn bound key value).isOk = bound.isSome)
    ∧ (∀ (bound : Option FlashStore) (fd : List (String × FormValue)),
        (flashInputsFn bound fd).isOk = bound.isSome)
    ∧ (∀ (bound : Option FlashStore) (filters : KeyArg),
        (getFlashFn bound filters).isOk = bound.isSome)
    ∧ (∀ (bound : Option FlashStore) (append : Bool) (pick omitF : FlashFilter),
        (reflashFn bound append pick omitF).isOk = bound.isSome)
    ∧ (∀ (bound : Option FlashStore) (name : String),
        (old bound name).isOk = bound.isSome)
    ∧ (∀ (bound : Option FlashStore) (name : String),
        (oldChecked bound name).isOk = bound.isSome)
    ∧ (∀ (bound : Option FlashStore) (name optionValue : String),
        (oldSelected bound name optionValue).isOk = bound.isSome) := by
  refine ⟨?_, ?_, ?_, ?_, ?_, ?_, ?_, ?_, ?_⟩ <;> intro bound <;> first
    | rfl
    | (intros; cases bound <;> rfl)

/-- C6: `commit` is the identity when `next.valid` is false; when
`next.valid` is true it appends exactly one outgoing cookie value, the
serialization of `next`, and touches nothing else. -/
theorem commit_gating (s : FlashStore) :
    (s.next.valid = false → s.commit = s)
    ∧ (s.next.valid = true →
        s.commit.outgoing = s.outgoing ++ [Flash.toJson s.next]
        ∧ s.commit.current = s.current ∧ s.commit.next = s.next) := by
  constructor
  · intro h; simp [FlashStore.commit, h]
  · intro h; refine ⟨?_, ?_, ?_⟩ <;> simp [FlashStore.commit, h]

theorem commit_gating_witness :
    (mkFlashStore none).commit = mkFlashStore none
    ∧ (((mkFlashStore none).flash (KeyArg.str "a") JSONValue.null).commit).outgoing
        = [Flash.toJson ⟨[⟨["ext", "a"], JSONValue.null⟩], true⟩] := by
  constructor
  · exact (commit_gating (mkFlashStore none)).1 rfl
  · exact (((commit_gating
      ((mkFlashStore none).flash (KeyArg.str "a") JSONValue.null)).2 rfl).1).trans rfl

/-- C7: a store initialized from an absent cookie, an unparsable cookie, or
a cookie whose JSON fails the `isFlash` schema check has the empty invalid
container as `current`, and `get()` with no filter returns exactly that
container; `initializeFlash` is total, so no error reaches the caller. -/
theorem initialize_malformed_empty :
    (mkFlashStore none).current = ⟨[], false⟩
    ∧ (mkFlashStore (some none)).current = ⟨[], false⟩
    ∧ (∀ j : JSONValue, isFlash j = false →
        (mkFlashStore (some (some j))).current = ⟨[], false⟩)
    ∧ (mkFlashStore none).getContainer = ⟨[], false⟩
    ∧ (mkFlashStore (some none)).getContainer = ⟨[], false⟩
    ∧ (∀ j : JSONValue, isFlash j = false →
        (mkFlashStore (some (some j))).getContainer = ⟨[], false⟩) := by
  refine ⟨rfl, rfl, ?_, rfl, rfl, ?_⟩ <;>
    · intro j h
      simp [mkFlashStore, initializeFlash, FlashStore.getContainer, h]

theorem initialize_malformed_empty_witness :
    isFlash (JSONValue.str "oops") = false
    ∧ (mkFlashStore (some (some (JSONValue.str "oops")))).current = ⟨[], false⟩ :=
  ⟨rfl, initialize_malformed_empty.2.2.1 (JSONValue.str "oops") rfl⟩

/-- C10: `reflash` sets `next.valid` unconditionally, so a subsequent
`commit` always writes exactly one outgoing cookie value — for an empty
store the cookie encoding the container with `valid = true` and no values. -/
theorem reflash_always_valid :
    (∀ (s : FlashStore) (append : Bool) (pick omitF : FlashFilter),
        (s.reflash append pick omitF).next.valid = true)
    ∧ (∀ (s : FlashStore) (append : Bool) (pick omitF : FlashFilter),
        ((s.reflash append pick omitF).commit).outgoing
          = s.outgoing ++ [Flash.toJson (s.reflash append pick omitF).next])
    ∧ ((((mkFlashStore none).reflash true (FlashFilter.paths [])
          (FlashFilter.paths [])).commit).outgoing
        = [Flash.toJson ⟨[], true⟩]) := by
  refine ⟨?_, ?_, rfl⟩
  · intro s append pick omitF
    cases append <;> simp [FlashStore.reflash]
  · intro s append pick omitF
    cases append <;> simp [FlashStore.reflash, FlashStore.commit]

/-! ### Pick/omit filtering -/

theorem survive_pred_eq (pick omitF : FlashFilter) (key : List String) :
    (if decide (pick.length > 0) && !checkKeyAgainstFilters key pick then false
     else if decide (omitF.length > 0) && checkKeyAgainstFilters key omitF then false
     else true)
    = ((decide (pick.length = 0) || checkKeyAgainstFilters key pick)
       && (decide (omitF.length = 0) || !checkKeyAgainstFilters key omitF)) := by
  by_cases h1 : pick.length = 0 <;> by_cases h2 : omitF.length = 0 <;>
    cases hcp : checkKeyAgainstFilters key pick <;>
    cases hco : checkKeyAgainstFilters key omitF <;>
    simp [h1, h2, hcp, hco, Nat.pos_iff_ne_zero]

theorem filterFlashValues_eq (values : List FlashValue) (pick omitF : FlashFilter) :
    filterFlashValues values pick omitF
      = values.filter (fun fv =>
          (decide (pick.length = 0) || checkKeyAgainstFilters fv.key pick)
          && (decide (omitF.length = 0) || !checkKeyAgainstFilters fv.key omitF)) := by
  unfold filterFlashValues
  exact List.filter_congr (fun fv _ => survive_pred_eq pick omitF fv.key)

theorem filterFlashValues_sublist (values : List FlashValue)
    (pick omitF : FlashFilter) :
    List.Sublist (filterFlashValues values pick omitF) values :=
  List.filter_sublist values

theorem reflash_next_values (s : FlashStore) (append : Bool)
    (pick omitF : FlashFilter) :
    (s.reflash append pick omitF).next.values
      = (if append then s.next.values else [])
        ++ filterFlashValues s.current.values pick omitF := by
  cases append <;> simp [FlashStore.reflash]

theorem checkKey_iff_exists (key : List String) (flt : FlashFilter) :
    checkKeyAgainstFilters key flt = true ↔
      ∃ p ∈ normalizeFilters flt, ∃ t, p ++ t = key := by
  unfold checkKeyAgainstFilters
  rw [List.any_eq_true]
  constructor
  · rintro ⟨p, hp, hm⟩; exact ⟨p, hp, (segsMatch_iff_append p key).1 hm⟩
  · rintro ⟨p, hp, ht⟩; exact ⟨p, hp, (segsMatch_iff_append p key).2 ht⟩

theorem checkKey_eq_false_iff (key : List String) (flt : FlashFilter) :
    checkKeyAgainstFilters key flt = false ↔
      ¬ ∃ p ∈ normalizeFilters flt, ∃ t, p ++ t = key := by
  rw [← checkKey_iff_exists]
  cases h : checkKeyAgainstFilters key flt <;> simp

/-- C4: `filterFlashValues` keeps exactly the values that pass the pick
condition (pick empty, or the key extends some pick path) and the omit
condition (omit empty, or the key extends no omit path); a value of the
input survives iff that conjunction holds; the survivors form a sublist of
the input (relative order kept, no duplication introduced); and `reflash`
carries exactly this subset forward into `next`. -/
theorem reflash_pick_omit (values : List FlashValue) (pick omitF : FlashFilter) :
    (filterFlashValues values pick omitF
      = values.filter (fun fv =>
          (decide (pick.length = 0)
            || (normalizeFilters pick).any (fun p => segsMatch p fv.key))
          && (decide (omitF.length = 0)
            || !((normalizeFilters omitF).any (fun p => segsMatch p fv.key)))))
    ∧ (∀ fv ∈ values,
        (fv ∈ filterFlashValues values pick omitF ↔
          ((pick.length = 0 ∨ ∃ p ∈ normalizeFilters pick, ∃ t, p ++ t = fv.key)
           ∧ (omitF.length = 0
              ∨ ¬ ∃ p ∈ normalizeFilters omitF, ∃ t, p ++ t = fv.key))))
    ∧ List.Sublist (filterFlashValues values pick omitF) values
    ∧ (∀ (s : FlashStore) (append : Bool),
        (s.reflash append pick omitF).next.values
          = (if append then s.next.values else [])
            ++ filterFlashValues s.current.values pick omitF) := by
  refine ⟨?_, ?_, filterFlashValues_sublist values pick omitF,
    fun s append => reflash_next_values s append pick omitF⟩
  · rw [filterFlashValues_eq]; rfl
  · intro fv hmem
    unfold filterFlashValues
    rw [List.mem_filter]
    simp only [hmem, true_and]
    rw [survive_pred_eq]
    simp only [Bool.and_eq_true, Bool.or_eq_true, decide_eq_true_eq,
      Bool.not_eq_true', checkKey_iff_exists, checkKey_eq_false_iff]

theorem reflash_pick_omit_witness :
    (⟨["ext", "a"], JSONValue.null⟩ : FlashValue)
      ∈ filterFlashValues [⟨["ext", "a"], JSONValue.null⟩]
          (FlashFilter.paths []) (FlashFilter.paths []) := by
  have h := (reflash_pick_omit [⟨["ext", "a"], JSONValue.null⟩]
      (FlashFilter.paths []) (FlashFilter.paths [])).2.1
    ⟨["ext", "a"], JSONValue.null⟩ (List.mem_singleton.mpr rfl)
  exact h.mpr ⟨Or.inl rfl, Or.inl rfl⟩

/-! ### C1: flash / get / commit in one request -/

/-- C1 counterexample: after `flash("error", "too short")` on a store with
no incoming cookie, `get("error")` in the same request returns the empty
list, not `["too short"]` — `flash` writes to `next` while `get` reads
`current`. -/
theorem flash_get_same_request_cex :
    (((mkFlashStore none).flash (KeyArg.str "error")
        (JSONValue.str "too short")).get (KeyArg.str "error") = [])
    ∧ ([] : List JSONValue) ≠ [JSONValue.str "too short"] :=
  ⟨rfl, (List.cons_ne_nil _ _).symm⟩

/-- C1 amended: with no incoming cookie, after `flash("error", "too short")`
the same-request `get("error")` is empty, `commit()` writes exactly the
cookie document encoding the container with `valid = true` and the single
value at key `["ext", "error"]`, that document decodes back to the same
container, and a store initialized from it returns `["too short"]` for
`get("error")`. -/
theorem flash_commit_roundtrip :
    (((mkFlashStore none).flash (KeyArg.str "error")
        (JSONValue.str "too short")).get (KeyArg.str "error") = [])
    ∧ ((((mkFlashStore none).flash (KeyArg.str "error")
          (JSONValue.str "too short")).commit).outgoing
        = [Flash.toJson ⟨[⟨["ext", "error"], JSONValue.str "too short"⟩], true⟩])
    ∧ (jsonToFlash (Flash.toJson ⟨[⟨["ext", "error"], JSONValue.str "too short"⟩], true⟩)
        = some ⟨[⟨["ext", "error"], JSONValue.str "too short"⟩], true⟩)
    ∧ ((mkFlashStore (some (some (Flash.toJson
          ⟨[⟨["ext", "error"], JSONValue.str "too short"⟩], true⟩)))).get
            (KeyArg.str "error")
        = [JSONValue.str "too short"]) :=
  ⟨rfl, rfl, rfl, rfl⟩

/-! ### C2: reads from an invalid container -/

/-- C2 counterexample: a cookie that passes the schema check with
`valid = false` but non-empty `values` yields a store whose `get("error")`
returns the stored value — `get` does not consult the `valid` flag. -/
theorem get_ignores_valid_cex :
    ((mkFlashStore (some (some (JSONValue.obj
        [("values", JSONValue.arr [JSONValue.obj
            [("key", JSONValue.arr [JSONValue.str "ext", JSONValue.str "error"]),
             ("value", JSONValue.str "x")]]),
         ("valid", JSONValue.bool false)])))).current.valid = false)
    ∧ ((mkFlashStore (some (some (JSONValue.obj
        [("values", JSONValue.arr [JSONValue.obj
            [("key", JSONValue.arr [JSONValue.str "ext", JSONValue.str "error"]),
             ("value", JSONValue.str "x")]]),
         ("valid", JSONValue.bool false)])))).get (KeyArg.str "error")
        = [JSONValue.str "x"])
    ∧ [JSONValue.str "x"] ≠ ([] : List JSONValue) :=
  ⟨rfl, rfl, List.cons_ne_nil _ _⟩

/-- C2 amended: when `current.valid` is false, `getInputs()` returns no
value; `get(f)` ignores the `valid` flag entirely (its result only depends
on `current.values`), so it returns the empty list exactly when
`current.values` holds no matching value — in particular whenever
`current.values` is empty. -/
theorem invalid_container_reads (s : FlashStore) (h : s.current.valid = false) :
    s.getInputs = none
    ∧ (∀ f : KeyArg, s.current.values = [] → s.get f = [])
    ∧ (∀ (f : KeyArg) (b : Bool),
        FlashStore.get ⟨⟨s.current.values, b⟩, s.next, s.outgoing⟩ f = s.get f) := by
  refine ⟨?_, ?_, ?_⟩
  · simp [FlashStore.getInputs, h]
  · intro f hv; simp [FlashStore.get, hv]
  · intro f b; rfl

theorem invalid_container_reads_witness :
    (mkFlashStore none).getInputs = none
    ∧ (mkFlashStore none).get (KeyArg.str "a") = [] :=
  ⟨(invalid_container_reads (mkFlashStore none) rfl).1,
   (invalid_container_reads (mkFlashStore none) rfl).2.1 (KeyArg.str "a") rfl⟩

/-! ### C9: namespacing of reflash pick paths -/

/-- C9 counterexample: for `k = ""` the first segment of `k` is `""`,
which is not `"ext"`, yet `reflash(\x7bpick: ""\x7d)` carries the value
flashed under `k` forward, because an empty-string pick has `.length === 0`
and disables the pick restriction entirely. -/
theorem reflash_pick_empty_string_cex :
    (((mkFlashStore (some (some (Flash.toJson
          ((mkFlashStore none).flash (KeyArg.str "") (JSONValue.str "v")).next)))).reflash
        true (KeyArg.toFilter (KeyArg.str "")) (FlashFilter.paths [])).next.values
      = [⟨["ext", ""], JSONValue.str "v"⟩])
    ∧ (KeyArg.str "").flat.head? = some ""
    ∧ ("" : String) ≠ "ext" :=
  ⟨rfl, rfl, by decide⟩

/-- C9 amended: `reflash` matches pick paths against the full stored key
without prepending `"ext"` (unlike `get`, which prepends it to its filter):
whenever the pick argument is non-degenerate (`pick.length ≠ 0`; an empty
string or empty list disables the restriction) and the first segment of `k`
is not `"ext"`, the key `["ext"] ++ k` stored by `flash(k, v)` matches no
pick path of `k`, so no such value survives the pick filter — while `get(k)`
does return `v` from a container holding that key. -/
theorem reflash_requires_ext_pick (k : KeyArg) (hlen : k.toFilter.length ≠ 0)
    (hh : k.flat.head? ≠ some "ext") :
    checkKeyAgainstFilters ("ext" :: k.flat) k.toFilter = false
    ∧ (∀ (c : List FlashValue) (fv : FlashValue),
        fv ∈ filterFlashValues c k.toFilter (FlashFilter.paths []) →
          fv.key ≠ "ext" :: k.flat)
    ∧ (∀ (c : List FlashValue) (v : JSONValue) (b : Bool),
        FlashValue.mk ("ext" :: k.flat) v ∈ c →
          v ∈ FlashStore.get ⟨⟨c, b⟩, ⟨[], false⟩, []⟩ k) := by
  have hch : checkKeyAgainstFilters ("ext" :: k.flat) k.toFilter = false := by
    cases k with
    | str s =>
      have hs : s ≠ "ext" := by simpa [KeyArg.flat] using hh
      simp [checkKeyAgainstFilters, normalizeFilters, KeyArg.toFilter, KeyArg.flat,
        segsMatch, hs]
    | list l =>
      cases l with
      | nil => simp [KeyArg.toFilter, FlashFilter.length] at hlen
      | cons x t =>
        have hx : x ≠ "ext" := by simpa [KeyArg.flat] using hh
        simp [checkKeyAgainstFilters, normalizeFilters, KeyArg.toFilter, KeyArg.flat,
          segsMatch, hx]
  have hpos : decide (k.toFilter.length > 0) = true := by
    simp [Nat.pos_iff_ne_zero, hlen]
  refine ⟨hch, ?_, ?_⟩
  · intro c fv hmem heq
    unfold filterFlashValues at hmem
    rw [List.mem_filter] at hmem
    obtain ⟨-, hpred⟩ := hmem
    rw [heq, hch, hpos] at hpred
    simp at hpred
  · intro c v b hmem
    unfold FlashStore.get
    rw [List.mem_map]
    refine ⟨⟨"ext" :: k.flat, v⟩, ?_, rfl⟩
    rw [List.mem_filter]
    exact ⟨hmem, segsMatch_refl _⟩

theorem reflash_requires_ext_pick_witness :
    ((KeyArg.str "error").toFilter.length ≠ 0)
    ∧ ((KeyArg.str "error").flat.head? ≠ some "ext")
    ∧ checkKeyAgainstFilters ("ext" :: (KeyArg.str "error").flat)
        (KeyArg.str "error").toFilter = false := by
  refine ⟨by decide, by decide, ?_⟩
  exact (reflash_requires_ext_pick (KeyArg.str "error") (by decide) (by decide)).1

/-! ### FormData codec lemmas -/

theorem any_map_fst (obj : List (String × List String)) (k : String) :
    (keysOf obj).any (fun b => b == k) = obj.any (fun p => p.1 == k) := by
  induction obj with
  | nil => rfl
  | cons a t ih =>
    simp only [keysOf, List.map_cons, List.any_cons] at *
    rw [ih]

theorem mem_keys_iff_any (obj : List (String × List String)) (k : String) :
    k ∈ keysOf obj ↔ obj.any (fun p => p.1 == k) = true := by
  rw [← any_map_fst, List.any_eq_true]
  constructor
  · intro h; exact ⟨k, h, by simp⟩
  · rintro ⟨a, ha, hak⟩
    rw [beq_iff_eq] at hak
    rwa [hak] at ha

theorem find?_map_addEntry (obj : List (String × List String)) (k v n : String) :
    (obj.map (fun p => if p.1 == k then (p.1, p.2 ++ [v]) else p)).find?
        (fun p => p.1 == n)
      = (obj.find? (fun p => p.1 == n)).map
          (fun p => if p.1 == k then (p.1, p.2 ++ [v]) else p) := by
  induction obj with
  | nil => rfl
  | cons a t ih =>
    have hfst :
        ((if a.1 == k then (a.1, a.2 ++ [v]) else a) : String × List String).1
          = a.1 := by
      by_cases h : (a.1 == k) = true <;> simp [h]
    simp only [List.map_cons, List.find?_cons]
    rw [hfst]
    cases han : (a.1 == n)
    · simpa [han] using ih
    · simp [han]

theorem bucketD_addEntry (obj : List (String × List String)) (k v n : String) :
    bucketD (addEntry obj k v) n
      = if k == n then bucketD obj n ++ [v] else bucketD obj n := by
  unfold addEntry
  cases hany : obj.any (fun p => p.1 == k)
  · -- no existing bucket for k: a fresh bucket is appended at the end
    simp only [hany, Bool.false_eq_true, if_false]
    unfold bucketD
    rw [List.find?_append]
    cases hkn : (k == n)
    · have hnone : List.find? (fun p => p.1 == n) [(k, [v])] = none := by
        simp [List.find?_cons, hkn]
      rw [hnone, Option.or_none]
      simp [hkn]
    · have hk : k = n := by rwa [beq_iff_eq] at hkn
      subst hk
      have hnone : List.find? (fun p => p.1 == k) obj = none := by
        rw [List.find?_eq_none]
        exact List.any_eq_false.mp hany
      rw [hnone]
      simp [List.find?_cons]
  · -- existing bucket: the matching bucket is extended in place
    simp only [hany, if_true]
    unfold bucketD
    rw [find?_map_addEntry]
    cases hkn : (k == n)
    · cases hf : List.find? (fun p => p.1 == n) obj with
      | none => simp [hkn]
      | some p =>
        have hpn : (p.1 == n) = true := by simpa using List.find?_some hf
        have hpk : (p.1 == k) = false := by
          rw [beq_iff_eq] at hpn
          rw [beq_eq_false_iff_ne, hpn]
          intro heq
          rw [heq] at hkn
          simp at hkn
        have hpk' : ¬ p.1 = k := by simpa using hpk
        simp [hpk', hkn]
    · have hk : k = n := by rwa [beq_iff_eq] at hkn
      subst hk
      have hsome : ∃ p, List.find? (fun p => p.1 == k) obj = some p := by
        have := List.find?_isSome.mpr (List.any_eq_true.mp hany)
        cases hf : List.find? (fun p => p.1 == k) obj with
        | none => rw [hf] at this; cases this
        | some p => exact ⟨p, rfl⟩
      obtain ⟨p, hf⟩ := hsome
      have hpk : p.1 = k := by simpa using List.find?_some hf
      simp [hf, hpk]

theorem bucketD_foldl (l : List (String × FormValue))
    (obj : List (String × List String)) (n : String) :
    bucketD (l.foldl serStep obj) n = bucketD obj n ++ stringsFor l n := by
  induction l generalizing obj with
  | nil => simp [stringsFor]
  | cons e t ih =>
    obtain ⟨k, val⟩ := e
    cases val with
    | file =>
      rw [List.foldl_cons]
      simpa [serStep, stringsFor] using ih obj
    | str v =>
      rw [List.foldl_cons]
      have hstep : serStep obj (k, FormValue.str v) = addEntry obj k v := rfl
      rw [hstep, ih, bucketD_addEntry]
      cases hkn : (k == n) <;> simp [stringsFor, hkn]

theorem bucketD_serialize (x : List (String × FormValue)) (n : String) :
    bucketD (serializeFormData x) n = stringsFor x n := by
  have h := bucketD_foldl x [] n
  simpa [serializeFormData, bucketD] using h

theorem keysOf_addEntry (obj : List (String × List String)) (k v : String) :
    keysOf (addEntry obj k v)
      = if obj.any (fun p => p.1 == k) then keysOf obj else keysOf obj ++ [k] := by
  unfold addEntry
  cases hany : obj.any (fun p => p.1 == k)
  · simp [hany, keysOf]
  · simp only [hany, if_true]
    unfold keysOf
    rw [List.map_map]
    refine List.map_congr_left ?_
    intro p _
    by_cases h : p.1 = k <;> simp [h]

theorem keys_nodup_foldl (l : List (String × FormValue))
    (obj : List (String × List String)) (h : (keysOf obj).Nodup) :
    (keysOf (l.foldl serStep obj)).Nodup := by
  induction l generalizing obj with
  | nil => exact h
  | cons e t ih =>
    rw [List.foldl_cons]
    apply ih
    obtain ⟨k, val⟩ := e
    cases val with
    | file => exact h
    | str v =>
      show (keysOf (addEntry obj k v)).Nodup
      rw [keysOf_addEntry]
      cases hany : obj.any (fun p => p.1 == k)
      · simp only [hany, Bool.false_eq_true, if_false]
        rw [List.nodup_append]
        refine ⟨h, List.nodup_singleton k, ?_⟩
        intro a ha hb
        rw [List.mem_singleton] at hb
        subst hb
        have := (mem_keys_iff_any obj a).mp ha
        rw [this] at hany
        cases hany
      · simpa [hany] using h

theorem buckets_ne_nil_foldl (l : List (String × FormValue))
    (obj : List (String × List String)) (h : ∀ p ∈ obj, p.2 ≠ []) :
    ∀ p ∈ l.foldl serStep obj, p.2 ≠ [] := by
  induction l generalizing obj with
  | nil => exact h
  | cons e t ih =>
    rw [List.foldl_cons]
    apply ih
    obtain ⟨k, val⟩ := e
    cases val with
    | file => exact h
    | str v =>
      show ∀ p ∈ addEntry obj k v, p.2 ≠ []
      unfold addEntry
      cases hany : obj.any (fun p => p.1 == k)
      · simp only [Bool.false_eq_true, if_false]
        intro p hp
        rw [List.mem_append] at hp
        rcases hp with hp | hp
        · exact h p hp
        · rw [List.mem_singleton] at hp
          subst hp
          simp
      · simp only [if_true]
        intro p hp
        rw [List.mem_map] at hp
        obtain ⟨q, hq, hqe⟩ := hp
        subst hqe
        by_cases hqk : (q.1 == k) = true
        · simp [hqk]
        · simp only [hqk, Bool.false_eq_true, if_false]
          exact h q hq

theorem fdGetAll_append (a b : List (String × FormValue)) (n : String) :
    fdGetAll (a ++ b) n = fdGetAll a n ++ fdGetAll b n := by
  simp [fdGetAll, List.filter_append]

theorem fdGetAll_cons (e : String × FormValue) (t : List (String × FormValue))
    (n : String) :
    fdGetAll (e :: t) n
      = if e.1 == n then e.2 :: fdGetAll t n else fdGetAll t n := by
  unfold fdGetAll
  rw [List.filter_cons]
  cases h : (e.1 == n) <;> simp [h]

theorem fdGetAll_expand (k : String) (vs : List String) (n : String) :
    fdGetAll (vs.map (fun v => (k, FormValue.str v))) n
      = if k == n then vs.map FormValue.str else [] := by
  induction vs with
  | nil => cases hkn : (k == n) <;> simp [fdGetAll]
  | cons v t ih =>
    simp only [List.map_cons, fdGetAll_cons]
    cases hkn : (k == n) <;> simp [hkn, ih]

theorem fdGetAll_deserialize (data : List (String × List String)) (n : String) :
    fdGetAll (deserializeFormData data) n = (joinBuckets data n).map FormValue.str := by
  induction data with
  | nil => rfl
  | cons p t ih =>
    obtain ⟨k, vs⟩ := p
    simp only [deserializeFormData, List.map_cons, List.flatten_cons] at *
    rw [fdGetAll_append, fdGetAll_expand, ih]
    unfold joinBuckets
    rw [List.filter_cons]
    cases hkn : (k == n) <;> simp [hkn]

theorem joinBuckets_eq_bucketD (data : List (String × List String)) (n : String)
    (h : (keysOf data).Nodup) : joinBuckets data n = bucketD data n := by
  induction data with
  | nil => rfl
  | cons p t ih =>
    have hcons : keysOf (p :: t) = p.1 :: keysOf t := rfl
    rw [hcons, List.nodup_cons] at h
    obtain ⟨hnotin, hnd⟩ := h
    cases hkn : (p.1 == n)
    · have h1 : joinBuckets (p :: t) n = joinBuckets t n := by
        unfold joinBuckets
        rw [List.filter_cons]
        simp [hkn]
      have h2 : bucketD (p :: t) n = bucketD t n := by
        unfold bucketD
        rw [List.find?_cons]
        simp [hkn]
      rw [h1, h2]
      exact ih hnd
    · have hpn : p.1 = n := by rwa [beq_iff_eq] at hkn
      have hrest : t.filter (fun q => q.1 == n) = [] := by
        rw [List.filter_eq_nil_iff]
        intro q hq hqn
        apply hnotin
        rw [beq_iff_eq] at hqn
        have : q.1 ∈ keysOf t := List.mem_map.mpr ⟨q, hq, rfl⟩
        rw [hqn, ← hpn] at this
        exact this
      have h1 : joinBuckets (p :: t) n = p.2 := by
        unfold joinBuckets
        rw [List.filter_cons]
        simp [hkn, hrest]
      have h2 : bucketD (p :: t) n = p.2 := by
        unfold bucketD
        rw [List.find?_cons]
        simp [hkn]
      rw [h1, h2]

theorem fdGetAll_stringEntries (x : List (String × FormValue)) (n : String) :
    fdGetAll (x.filter (fun e => isStr e.2)) n = (stringsFor x n).map FormValue.str := by
  induction x with
  | nil => rfl
  | cons e t ih =>
    obtain ⟨k, val⟩ := e
    cases val with
    | file => simpa [List.filter_cons, isStr, stringsFor] using ih
    | str v =>
      show fdGetAll ((k, FormValue.str v) :: t.filter (fun e => isStr e.2)) n = _
      rw [fdGetAll_cons]
      cases hkn : (k == n) <;> simp [hkn, stringsFor, ih]

theorem firstOccKeys_nil : firstOccKeys [] = [] := by
  rw [firstOccKeys]

theorem firstOccKeys_cons (k : String) (t : List String) :
    firstOccKeys (k :: t) = k :: firstOccKeys (t.filter (fun a => !(k == a))) := by
  rw [firstOccKeys]

theorem any_key_addEntry (obj : List (String × List String)) (k v a : String) :
    (addEntry obj k v).any (fun p => p.1 == a)
      = (obj.any (fun p => p.1 == a) || (k == a)) := by
  unfold addEntry
  cases hany : obj.any (fun p => p.1 == k)
  · simp [hany, List.any_append]
  · simp only [hany, if_true]
    rw [List.any_map]
    have hcomp : ((fun (p : String × List String) => p.1 == a)
        ∘ (fun p => if p.1 == k then (p.1, p.2 ++ [v]) else p))
        = (fun p => p.1 == a) := by
      funext q
      by_cases h : q.1 = k <;> simp [h]
    rw [hcomp]
    cases hka : (k == a)
    · simp
    · have hk : k = a := by rwa [beq_iff_eq] at hka
      subst hk
      simp [hany]

theorem keysOf_foldl_serStep (l : List (String × FormValue))
    (obj : List (String × List String)) :
    keysOf (l.foldl serStep obj)
      = keysOf obj
        ++ firstOccKeys (((l.filter (fun e => isStr e.2)).map Prod.fst).filter
            (fun a => !(obj.any (fun p => p.1 == a)))) := by
  induction l generalizing obj with
  | nil => simp [firstOccKeys_nil]
  | cons e t ih =>
    obtain ⟨k, val⟩ := e
    cases val with
    | file =>
      rw [List.foldl_cons]
      exact ih obj
    | str v =>
      rw [List.foldl_cons]
      have hstep : serStep obj (k, FormValue.str v) = addEntry obj k v := rfl
      rw [hstep, ih (addEntry obj k v)]
      have hhead : ((k, FormValue.str v) :: t).filter (fun e => isStr e.2)
          = (k, FormValue.str v) :: t.filter (fun e => isStr e.2) := rfl
      rw [hhead]
      simp only [List.map_cons]
      rw [List.filter_cons]
      cases hk : obj.any (fun p => p.1 == k)
      · -- the key is new: a bucket is appended and the key survives the filter
        simp only [hk, Bool.not_false, eq_self_iff_true, if_true]
        rw [firstOccKeys_cons, List.filter_filter]
        rw [keysOf_addEntry]
        simp only [hk, Bool.false_eq_true, if_false]
        have hpred : (fun a => !((addEntry obj k v).any (fun p => p.1 == a)))
            = (fun a => (!(k == a)) && !(obj.any (fun p => p.1 == a))) := by
          funext a
          rw [any_key_addEntry, Bool.not_or, Bool.and_comm]
        rw [hpred]
        simp [List.append_assoc]
      · -- the key already has a bucket: keys unchanged, the key filtered out
        simp only [hk, Bool.not_true, Bool.false_eq_true, if_false]
        rw [keysOf_addEntry]
        simp only [hk, if_true]
        have hpred : ∀ a, (!((addEntry obj k v).any (fun p => p.1 == a)))
            = (!(obj.any (fun p => p.1 == a))) := by
          intro a
          rw [any_key_addEntry]
          cases hka : (k == a)
          · simp
          · have : k = a := by rwa [beq_iff_eq] at hka
            subst this
            simp [hk]
        have heq := List.filter_congr
          (fun a _ => hpred a)
          (l := (t.filter (fun e => isStr e.2)).map Prod.fst)
        rw [heq]

theorem map_fst_expand (k : String) (vs : List String) :
    (vs.map (fun v => (k, FormValue.str v))).map Prod.fst
      = List.replicate vs.length k := by
  induction vs with
  | nil => rfl
  | cons v t ih => simp [List.replicate_succ, ih]

theorem filter_replicate_self (m : Nat) (k : String) :
    (List.replicate m k).filter (fun a => !(k == a)) = [] := by
  induction m with
  | zero => rfl
  | succ m ih =>
    rw [List.replicate_succ, List.filter_cons]
    simp [ih]

theorem dkeys_subset (t : List (String × List String)) (a : String)
    (h : a ∈ (deserializeFormData t).map Prod.fst) : a ∈ keysOf t := by
  induction t with
  | nil => simp [deserializeFormData] at h
  | cons p r ih =>
    simp only [deserializeFormData, List.map_cons, List.flatten_cons,
      List.map_append] at h
    rw [List.mem_append] at h
    rcases h with h | h
    · rw [List.map_map, List.mem_map] at h
      obtain ⟨v, hv, hva⟩ := h
      show a ∈ p.1 :: keysOf r
      rw [← hva]
      exact List.mem_cons_self _ _
    · exact List.mem_cons_of_mem _ (ih h)

theorem firstOccKeys_deserialize (data : List (String × List String))
    (hnd : (keysOf data).Nodup) (hne : ∀ p ∈ data, p.2 ≠ []) :
    firstOccKeys ((deserializeFormData data).map Prod.fst) = keysOf data := by
  induction data with
  | nil => exact firstOccKeys_nil
  | cons p t ih =>
    obtain ⟨k, vs⟩ := p
    have hvs : vs ≠ [] := hne (k, vs) (List.mem_cons_self _ _)
    obtain ⟨v, vs', rfl⟩ : ∃ v vs', vs = v :: vs' := by
      cases vs with
      | nil => exact absurd rfl hvs
      | cons v vs' => exact ⟨v, vs', rfl⟩
    rw [show keysOf ((k, v :: vs') :: t) = k :: keysOf t from rfl] at hnd ⊢
    rw [List.nodup_cons] at hnd
    obtain ⟨hnotin, hndt⟩ := hnd
    have hkeys : (deserializeFormData ((k, v :: vs') :: t)).map Prod.fst
        = k :: (List.replicate vs'.length k
            ++ (deserializeFormData t).map Prod.fst) := by
      show (((v :: vs').map (fun w => (k, FormValue.str w)))
          ++ deserializeFormData t).map Prod.fst = _
      rw [List.map_append, map_fst_expand, List.length_cons,
        List.replicate_succ, List.cons_append]
    rw [hkeys, firstOccKeys_cons, List.filter_append, filter_replicate_self]
    have hdk : ((deserializeFormData t).map Prod.fst).filter (fun a => !(k == a))
        = (deserializeFormData t).map Prod.fst := by
      rw [List.filter_eq_self]
      intro a ha
      have hak : a ∈ keysOf t := dkeys_subset t a ha
      have hne' : ¬ k = a := fun h => hnotin (h ▸ hak)
      simpa using hne'
    rw [hdk]
    simp only [List.nil_append]
    rw [ih hndt (fun p hp => hne p (List.mem_cons_of_mem _ hp))]

/-- C3: the round trip `deserializeFormData (serializeFormData x)` agrees
with `x` restricted to its string-valued entries field-for-field: for every
field name, the same values in the same order and multiplicity; the order
of distinct field names (by first occurrence) is preserved; and for a
submission with only string-valued entries this is agreement with `x`
itself.  Non-string entries are dropped by `serializeFormData` and excluded
from both sides of the comparison. -/
theorem formdata_roundtrip (x : List (String × FormValue)) :
    (∀ name : String,
        fdGetAll (deserializeFormData (serializeFormData x)) name
          = fdGetAll (x.filter (fun e => isStr e.2)) name)
    ∧ firstOccKeys ((deserializeFormData (serializeFormData x)).map Prod.fst)
        = firstOccKeys ((x.filter (fun e => isStr e.2)).map Prod.fst)
    ∧ (x.all (fun e => isStr e.2) = true →
        ∀ name : String,
          fdGetAll (deserializeFormData (serializeFormData x)) name
            = fdGetAll x name) := by
  have hnd : (keysOf (serializeFormData x)).Nodup :=
    keys_nodup_foldl x [] List.nodup_nil
  have hne : ∀ p ∈ serializeFormData x, p.2 ≠ [] :=
    buckets_ne_nil_foldl x [] (by intro p hp; cases hp)
  have h1 : ∀ name : String,
      fdGetAll (deserializeFormData (serializeFormData x)) name
        = fdGetAll (x.filter (fun e => isStr e.2)) name := by
    intro name
    rw [fdGetAll_deserialize, joinBuckets_eq_bucketD _ _ hnd, bucketD_serialize,
      fdGetAll_stringEntries]
  refine ⟨h1, ?_, ?_⟩
  · rw [firstOccKeys_deserialize _ hnd hne]
    have h10 := keysOf_foldl_serStep x []
    simp only [List.any_nil, Bool.not_false, List.filter_true] at h10
    have hk0 : keysOf ([] : List (String × List String)) = [] := rfl
    rw [hk0, List.nil_append] at h10
    exact h10
  · intro hall name
    rw [h1 name]
    have hfil : x.filter (fun e => isStr e.2) = x :=
      List.filter_eq_self.mpr (List.all_eq_true.mp hall)
    rw [hfil]

theorem formdata_roundtrip_witness :
    ([("a", FormValue.str "1"), ("b", FormValue.str "x"),
        ("a", FormValue.str "2")].all (fun e => isStr e.2) = true)
    ∧ fdGetAll (deserializeFormData (serializeFormData
        [("a", FormValue.str "1"), ("b", FormValue.str "x"),
         ("a", FormValue.str "2")])) "a"
      = fdGetAll [("a", FormValue.str "1"), ("b", FormValue.str "x"),
          ("a", FormValue.str "2")] "a" :=
  ⟨rfl, (formdata_roundtrip [("a", FormValue.str "1"), ("b", FormValue.str "x"),
      ("a", FormValue.str "2")]).2.2 rfl "a"⟩

end Honold
